import Mathlib

/-!
Verification of the price-scraper core (parser source file): the
price-text normalization and parsing pipeline of PriceScraper._clean_price,
and the bounded-retry extraction loop of PriceScraper.scrape_price together
with the concurrent batch entry point concurrent_scrape.

Strings are modelled as lists of characters.  Digits are modelled as the
ASCII decimal digits.  Numeric values are modelled in the rationals with
exact decimal semantics.
-/

namespace CrawlerBot

/-- Whitespace characters removed from both ends by the strip operation of
the source language. -/
def spaceChars : List Char :=
  [' ', '\t', '\n', '\r', '\u000B', '\u000C',
   '\u001C', '\u001D', '\u001E', '\u001F', '\u0085', ' ',
   ' ', ' ', ' ', ' ', ' ', ' ', ' ',
   ' ', ' ', ' ', ' ', ' ',
   ' ', ' ', ' ', ' ', '　']

/-- Test for a whitespace character in the sense of the strip operation. -/
def isPySpace (c : Char) : Bool := spaceChars.contains c

/-- Embedding of text.strip(): drop whitespace from both ends. -/
def pyStrip (l : List Char) : List Char :=
  ((l.dropWhile isPySpace).reverse.dropWhile isPySpace).reverse

/-- Recursion core of the replace embedding, fuelled by the length of the
remaining input: every step consumes at least one character, so fuel equal
to the length of the input is always sufficient. -/
def removeAllAux (pat : List Char) : ℕ → List Char → List Char
  | _, [] => []
  | 0, s => s
  | fuel + 1, c :: cs =>
    if pat ≠ [] ∧ pat.isPrefixOf (c :: cs) then
      removeAllAux pat fuel ((c :: cs).drop pat.length)
    else
      c :: removeAllAux pat fuel cs

/-- Embedding of text.replace(pat, empty string): delete every occurrence of
pat, scanning left to right, non-overlapping. -/
def removeAll (pat : List Char) (s : List Char) : List Char :=
  removeAllAux pat s.length s

/-- The ordered replacement patterns of _clean_price, lines 116-125 of the
parser source: non-breaking and thin spaces, the plain space, currency
symbols, currency abbreviations, and a stray encoding-artifact character.
Each is replaced by the empty string. -/
def replacements : List (List Char) :=
  [[' '], [' '], [' '], [' '], [' '],
   ['₽'], ['€'], ['$'], ['£'], ['¥'], ['₹'],
   ['р', '.'], ['р', 'у', 'б', '.'],
   ['R', 'U', 'B'], ['E', 'U', 'R'], ['U', 'S', 'D'], ['Â']]

/-- Apply every replacement in order, as the loop on lines 127-128 does. -/
def applyReplacements (s : List Char) : List Char :=
  replacements.foldl (fun acc pat => removeAll pat acc) s

/-- Embedding of text.split(sep) of the source language: split on every
occurrence of the separator; always returns at least one part, and parts
never contain the separator. -/
def pySplit (a : Char) : List Char → List (List Char)
  | [] => [[]]
  | c :: l =>
    if c = a then [] :: pySplit a l
    else
      match pySplit a l with
      | [] => [[c]]
      | p :: ps => (c :: p) :: ps

/-- The price-range resolution step of _clean_price, lines 130-135: if a
hyphen remains, split on it and keep the first stripped token containing at
least one digit (leaving the string unchanged when no token has a digit). -/
def rangeStep (s : List Char) : List Char :=
  if s.contains '-' then
    match ((pySplit '-' s).map pyStrip).find? (fun p => p.any Char.isDigit) with
    | some p => p
    | none => s
  else s

/-- Character class of the numeric-run pattern: a digit, a comma or a dot. -/
def numClass (c : Char) : Bool := c.isDigit || c == ',' || c == '.'

/-- Embedding of the leftmost search for the pattern
group(sign? run+ (sep digits+) star) on line 137, where run ranges over digits,
commas and dots.  Because the tail groups only consume run characters, the
match is exactly: an optional sign immediately preceding the first run
character, followed by the maximal run starting there. -/
def extractNumber : List Char → Option (List Char)
  | [] => none
  | c :: l =>
    if numClass c then some (c :: l.takeWhile numClass)
    else if c = '+' ∨ c = '-' then
      match l with
      | [] => none
      | b :: l2 =>
        if numClass b then some (c :: b :: l2.takeWhile numClass)
        else extractNumber l
    else extractNumber l

/-- Test for a separator character, comma or dot. -/
def isSepChar (c : Char) : Bool := c == ',' || c == '.'

/-- Embedding of text.rfind(c): index of the last occurrence, or -1. -/
def rfind (c : Char) : List Char → Int
  | [] => -1
  | a :: l =>
    if 0 ≤ rfind c l then rfind c l + 1 else if a = c then 0 else -1

/-- Test that every character of the list is a decimal digit. -/
def allDigits (l : List Char) : Bool := l.all Char.isDigit

/-- Body of the final validation pattern of line 165: digits+, or
digits star dot digits+ (at most one dot, fractional digits required). -/
def canonBody (s : List Char) : Bool :=
  match pySplit '.' s with
  | [ds] => !ds.isEmpty && allDigits ds
  | [ds, fs] => allDigits ds && (!fs.isEmpty && allDigits fs)
  | _ => false

/-- Embedding of the anchored validation pattern of line 165: optional sign,
then digits+ or digits star dot digits+. -/
def isCanonical : List Char → Bool
  | [] => false
  | c :: rest =>
    if c = '+' ∨ c = '-' then canonBody rest else canonBody (c :: rest)

/-- The separator-disambiguation tail of _clean_price, lines 141-168,
applied to the matched numeric run: collect the separators; with none,
return the run unchanged; otherwise take the rightmost separator as the
decimal point, strip remaining separators from the integer part, keep only
digits of the fractional part, apply the single-separator three-digit
thousands rule, prefix a zero to a bare fraction, and validate the result
against the canonical pattern.  (Line 141 of the source replaces commas by
commas, an identity, and is therefore not represented.) -/
def normalizeRun (ns : List Char) : List Char :=
  let seps := ns.filter isSepChar
  if seps.isEmpty then ns
  else
    let i := (max (rfind ',' ns) (rfind '.' ns)).toNat
    let integerPart := (ns.take i).filter (fun c => !(isSepChar c))
    let decimalPart := (ns.drop (i + 1)).filter Char.isDigit
    if decimalPart.length = 3 ∧ seps.length = 1 then integerPart ++ decimalPart
    else
      let cand :=
        if decimalPart.isEmpty then integerPart
        else integerPart ++ '.' :: decimalPart
      let cand2 :=
        if integerPart.isEmpty && !(decimalPart.isEmpty) then
          '0' :: '.' :: decimalPart
        else cand
      if integerPart.isEmpty && decimalPart.isEmpty then []
      else if isCanonical cand2 then cand2 else []

/-- Embedding of PriceScraper._clean_price, lines 110-168: strip, apply the
currency and whitespace replacements, resolve a price range, extract the
numeric run, and normalize it.  The empty list encodes the empty-string
failure returns. -/
def clean_price (text : List Char) : List Char :=
  match extractNumber (rangeStep (applyReplacements (pyStrip text))) with
  | none => []
  | some ns => normalizeRun ns

/-- Numeric value of a digit string, most significant digit first. -/
def digitsVal (l : List Char) : ℕ :=
  l.foldl (fun n c => 10 * n + (c.toNat - 48)) 0

/-- Value denoted by an unsigned canonical numeric string. -/
def ratBody (s : List Char) : ℚ :=
  match pySplit '.' s with
  | [ds] => (digitsVal ds : ℚ)
  | [ds, fs] => (digitsVal ds : ℚ) + (digitsVal fs : ℚ) / (10 : ℚ) ^ fs.length
  | _ => 0

/-- Value denoted by a canonical numeric string, sign included.  This is the
exact-decimal model of the float conversion on line 97. -/
def ratOfCanonical : List Char → ℚ
  | [] => 0
  | c :: rest =>
    if c = '-' then -(ratBody rest)
    else if c = '+' then ratBody rest
    else ratBody (c :: rest)

/-- The normalize-then-parse pipeline: _clean_price followed by the float
conversion of line 97.  The conversion raises exactly on the empty string,
since every non-empty result of _clean_price is canonical; the raise is
modelled as none. -/
def parseVal (s : List Char) : Option ℚ :=
  let c := clean_price s
  if c.isEmpty then none else some (ratOfCanonical c)

/-! The retry loop of PriceScraper.scrape_price, lines 65-107, the
diagnostic screenshot helper _take_screenshot, lines 170-181, and the batch
entry point concurrent_scrape, lines 194-219.  The interaction of one
attempt with the rendering engine (navigate, wait for the element, read its
text) is abstracted as an oracle giving, per attempt index, either a raised
engine-level error or the text read from the element.  The diagnostic
screenshot of a failed attempt is abstracted as an oracle giving, per
attempt index, one of three outcomes: the save succeeded, the save raised
(caught and logged by the clause on lines 180-181), or the directory
creation of lines 174-175 raised.  The last outcome sits outside the
try of _take_screenshot, so it propagates out of _take_screenshot and,
since the call on line 104 stands inside the except clause of
scrape_price, out of scrape_price itself.  Sleeps are recorded as events
rather than real time. -/

/-- Attempt-level failure taxonomy: everything the except clause on line 101
can catch from the attempt body, other than the float-conversion failure
which is modelled through an empty cleaned string. -/
inductive AttemptError where
  | elementNotFound
  | timeout
  | navigationError
  | engineFailure
deriving DecidableEq

/-- Outcome of the engine interaction of one attempt, lines 74-94: a raised
error, or the text read from the located element. -/
abbrev EngineOutcome := Except AttemptError (List Char)

/-- Outcome of one diagnostic screenshot, covering _take_screenshot on
lines 170-181: the save on line 178 succeeded; the save raised and was
swallowed by the clause on lines 180-181; or the directory creation on
lines 174-175 raised, which no handler in _take_screenshot covers. -/
inductive ScreenshotOutcome where
  | saved
  | saveFailed
  | dirFailed
deriving DecidableEq

/-- The one fault _take_screenshot can surface to its caller: a failure of
the os.getcwd/os.makedirs prologue on lines 174-175, which runs outside
its try. -/
inductive ScreenshotError where
  | directoryFailure
deriving DecidableEq

/-- Embedding of PriceScraper._take_screenshot, lines 170-181: a failed
save is swallowed (returning only whether the file was written), while a
directory-creation failure is a raised fault. -/
def take_screenshot : ScreenshotOutcome → Except ScreenshotError Bool
  | ScreenshotOutcome.saved => Except.ok true
  | ScreenshotOutcome.saveFailed => Except.ok false
  | ScreenshotOutcome.dirFailed => Except.error ScreenshotError.directoryFailure

/-- Whether a screenshot outcome wrote the file. -/
def savedFlag : ScreenshotOutcome → Bool
  | ScreenshotOutcome.saved => true
  | _ => false

/-- Observable events of one scrape_price call.  attemptStart k t is the
start of attempt k (1-indexed, as logged on line 73) with per-attempt
element-wait timeout t; screenshot ok is a completed diagnostic screenshot
call of a failed attempt (line 104), ok recording whether the save
succeeded; backoff d is the sleep of d time units on line 105. -/
inductive Event where
  | attemptStart (k : ℕ) (timeout : ℕ)
  | screenshot (ok : Bool)
  | backoff (delay : ℕ)
deriving DecidableEq

/-- Value produced by one attempt body, lines 73-99: an engine error gives
no value; otherwise the text is cleaned and converted, and the conversion
on line 97 raises, giving no value, exactly when the cleaned string is
empty. -/
def attemptValue (o : EngineOutcome) : Option ℚ :=
  match o with
  | Except.error _ => none
  | Except.ok text => parseVal text

/-- Recursion core of the while loop on lines 70-107: attempt is the
0-indexed loop counter of the source, remaining the number of iterations
left.  A successful attempt returns at once.  A failed attempt takes the
diagnostic screenshot: if that raises (directory creation, lines 174-175),
the exception leaves scrape_price from inside its except clause, with no
backoff and no further attempt; otherwise a backoff of 2 to the power
(attempt + 1) time units follows, mirroring attempt += 1 then
sleep(2 ** attempt). -/
def scrapeAux (engine : ℕ → EngineOutcome) (shot : ℕ → ScreenshotOutcome)
    (timeout : ℕ) : ℕ → ℕ → Except ScreenshotError (Option ℚ) × List Event
  | _, 0 => (Except.ok none, [])
  | attempt, r + 1 =>
    match attemptValue (engine attempt) with
    | some v => (Except.ok (some v), [Event.attemptStart (attempt + 1) timeout])
    | none =>
      match take_screenshot (shot attempt) with
      | Except.error e =>
        (Except.error e, [Event.attemptStart (attempt + 1) timeout])
      | Except.ok ok =>
        let rest := scrapeAux engine shot timeout (attempt + 1) r
        (rest.1,
          Event.attemptStart (attempt + 1) timeout ::
            Event.screenshot ok ::
              Event.backoff (2 ^ (attempt + 1)) :: rest.2)

/-- Embedding of PriceScraper.scrape_price, lines 65-107: the while loop
starts with counter 0 and runs while the counter is below retries, so it
performs max(retries, 0) iterations unless an attempt succeeds or a
screenshot directory failure raises first; exhaustion returns no value
(line 107), as an ordinary return, while a raised fault is the error
case. -/
def scrape_price (engine : ℕ → EngineOutcome) (shot : ℕ → ScreenshotOutcome)
    (timeout : ℕ) (retries : ℤ) : Except ScreenshotError (Option ℚ) × List Event :=
  scrapeAux engine shot timeout 0 retries.toNat

/-- Default per-attempt timeout of scrape_price, from its signature on
line 65. -/
def default_timeout : ℕ := 30

/-- Default retry limit of scrape_price, from its signature on line 65. -/
def default_retries : ℤ := 3

/-- One entry of the urls_xpaths argument of concurrent_scrape: a
dictionary carrying the url and xpath keys; further entries a caller might
add, such as a per-request timeout or retry limit, are representable here,
but the source task on lines 204-209 reads only the url and xpath keys. -/
structure SiteItem where
  url : List Char
  xpath : List Char
  timeoutEntry : Option ℕ
  retriesEntry : Option ℤ

/-- Embedding of the per-item task scrape_task of concurrent_scrape, lines
204-209: scrape_price is invoked with its default timeout and retry limit,
whatever the item carries. -/
def scrape_task (engine : ℕ → EngineOutcome) (shot : ℕ → ScreenshotOutcome)
    (item : SiteItem) : Except ScreenshotError (Option ℚ) × List Event :=
  scrape_price engine shot default_timeout default_retries

/-- Embedding of concurrent_scrape, lines 194-219, observed after the join
of all workers: each url is mapped to the result of its own worker; an
error value stands for a worker whose scrape_price call raised, which in
the source dies before writing its entry into the result map. -/
def concurrent_scrape (engines : SiteItem → ℕ → EngineOutcome)
    (shots : SiteItem → ℕ → ScreenshotOutcome) (items : List SiteItem) :
    List (List Char × Except ScreenshotError (Option ℚ)) :=
  items.map (fun it => (it.url, (scrape_task (engines it) (shots it) it).1))

/-- Test for an attempt-start event. -/
def isAttemptEvent : Event → Bool
  | Event.attemptStart _ _ => true
  | _ => false

/-- Erase the success flag of a screenshot event, for comparing traces up
to screenshot outcomes. -/
def maskShot : Event → Event
  | Event.screenshot _ => Event.screenshot true
  | e => e

/-- Attempt oracle on which every attempt raises an engine-level error. -/
def failEngine : ℕ → EngineOutcome := fun _ => Except.error AttemptError.timeout

/-- Screenshot oracle on which every diagnostic save fails but is
swallowed. -/
def constShot : ℕ → ScreenshotOutcome := fun _ => ScreenshotOutcome.saveFailed

/-- Screenshot oracle on which the screenshots directory cannot be
created. -/
def dirFailShot : ℕ → ScreenshotOutcome := fun _ => ScreenshotOutcome.dirFailed

/-- Concrete batch item whose dictionary carries a per-request timeout of 5
and a per-request retry limit of 1 besides the url and xpath keys. -/
def itemWithPolicy : SiteItem :=
  { url := "https://site.example/a".data, xpath := "//span".data,
    timeoutEntry := some 5, retriesEntry := some 1 }


/-- Characters a canonical numeric string without a minus sign may hold: a
digit, a plus sign or a dot. -/
def canonChar (c : Char) : Bool := c.isDigit || c == '+' || c == '.'

/-- Drop a leading sign character. -/
def stripSign : List Char → List Char
  | [] => []
  | c :: rest => if c = '+' ∨ c = '-' then rest else c :: rest

/-- Fractional part of a canonical numeric string: the digits after the
dot, empty when there is no dot. -/
def fracPart (s : List Char) : List Char :=
  match pySplit '.' (stripSign s) with
  | [_, fs] => fs
  | _ => []

/-- Interleave a separator between parts, the inverse of pySplit. -/
def joinSep (a : Char) : List (List Char) → List Char
  | [] => []
  | [p] => p
  | p :: ps => p ++ a :: joinSep a ps

/-- Evaluation helper: once the cleaned string of an input is computed, the
pipeline value is the value of that cleaned string. -/
lemma parseVal_eval (s out : List Char) (h : clean_price s = out)
    (hne : out.isEmpty = false) : parseVal s = some (ratOfCanonical out) := by
  simp [parseVal, h, hne]

/-- Evaluation helper for the value of a concrete fractional string. -/
lemma ratBody_eval (s ds fs : List Char)
    (h : pySplit '.' s = [ds, fs]) :
    ratBody s = (digitsVal ds : ℚ) + (digitsVal fs : ℚ) / (10 : ℚ) ^ fs.length := by
  simp [ratBody, h]

lemma take_screenshot_ok {o : ScreenshotOutcome}
    (h : o ≠ ScreenshotOutcome.dirFailed) :
    take_screenshot o = Except.ok (savedFlag o) := by
  cases o with
  | saved => rfl
  | saveFailed => rfl
  | dirFailed => exact absurd rfl h

lemma scrapeAux_succ_some {engine : ℕ → EngineOutcome}
    {shot : ℕ → ScreenshotOutcome} {t a r : ℕ} {v : ℚ}
    (h : attemptValue (engine a) = some v) :
    scrapeAux engine shot t a (r + 1) =
      (Except.ok (some v), [Event.attemptStart (a + 1) t]) := by
  simp [scrapeAux, h]

lemma scrapeAux_succ_none {engine : ℕ → EngineOutcome}
    {shot : ℕ → ScreenshotOutcome} {t a r : ℕ}
    (h : attemptValue (engine a) = none)
    (hshot : shot a ≠ ScreenshotOutcome.dirFailed) :
    scrapeAux engine shot t a (r + 1) =
      ((scrapeAux engine shot t (a + 1) r).1,
        Event.attemptStart (a + 1) t ::
          Event.screenshot (savedFlag (shot a)) ::
            Event.backoff (2 ^ (a + 1)) :: (scrapeAux engine shot t (a + 1) r).2) := by
  simp [scrapeAux, h, take_screenshot_ok hshot]

lemma scrapeAux_succ_dirfail {engine : ℕ → EngineOutcome}
    {shot : ℕ → ScreenshotOutcome} {t a r : ℕ}
    (h : attemptValue (engine a) = none)
    (hshot : shot a = ScreenshotOutcome.dirFailed) :
    scrapeAux engine shot t a (r + 1) =
      (Except.error ScreenshotError.directoryFailure,
        [Event.attemptStart (a + 1) t]) := by
  simp [scrapeAux, h, hshot, take_screenshot]

/-- As long as no screenshot hits the unguarded directory creation, the
returned value and the trace up to save flags do not depend on the
screenshot oracle. -/
lemma scrapeAux_shot_indep (engine : ℕ → EngineOutcome)
    (shot1 shot2 : ℕ → ScreenshotOutcome) (t : ℕ)
    (hs1 : ∀ k, shot1 k ≠ ScreenshotOutcome.dirFailed)
    (hs2 : ∀ k, shot2 k ≠ ScreenshotOutcome.dirFailed) : ∀ n a,
    (scrapeAux engine shot1 t a n).1 = (scrapeAux engine shot2 t a n).1 ∧
    (scrapeAux engine shot1 t a n).2.map maskShot =
      (scrapeAux engine shot2 t a n).2.map maskShot := by
  intro n
  induction n with
  | zero => intro a; exact ⟨rfl, rfl⟩
  | succ r ih =>
    intro a
    cases h : attemptValue (engine a) with
    | some v => rw [scrapeAux_succ_some h, scrapeAux_succ_some h]; exact ⟨rfl, rfl⟩
    | none =>
      rw [scrapeAux_succ_none h (hs1 a), scrapeAux_succ_none h (hs2 a)]
      exact ⟨(ih (a + 1)).1, by simp [maskShot, (ih (a + 1)).2]⟩

/-- When every attempt fails and no screenshot faults, the loop exhausts
and returns no value, not an error. -/
lemma scrapeAux_all_fail {engine : ℕ → EngineOutcome}
    {shot : ℕ → ScreenshotOutcome} {t : ℕ}
    (h : ∀ k, attemptValue (engine k) = none)
    (hs : ∀ k, shot k ≠ ScreenshotOutcome.dirFailed) : ∀ n a,
    (scrapeAux engine shot t a n).1 = Except.ok none := by
  intro n
  induction n with
  | zero => intro a; rfl
  | succ r ih =>
    intro a
    rw [scrapeAux_succ_none (h a) (hs a)]
    exact ih (a + 1)

/-- When every attempt fails and no screenshot faults, the trace holds
exactly one attempt-start event per loop iteration. -/
lemma scrapeAux_all_fail_count {engine : ℕ → EngineOutcome}
    {shot : ℕ → ScreenshotOutcome} {t : ℕ}
    (h : ∀ k, attemptValue (engine k) = none)
    (hs : ∀ k, shot k ≠ ScreenshotOutcome.dirFailed) : ∀ n a,
    (scrapeAux engine shot t a n).2.countP isAttemptEvent = n := by
  intro n
  induction n with
  | zero => intro a; rfl
  | succ r ih =>
    intro a
    rw [scrapeAux_succ_none (h a) (hs a)]
    simp [List.countP_cons, isAttemptEvent, ih (a + 1)]

/-- Every attempt-start event of a trace carries the configured timeout. -/
lemma scrapeAux_timeout_used (engine : ℕ → EngineOutcome)
    (shot : ℕ → ScreenshotOutcome) (t : ℕ) : ∀ n a k t0,
    Event.attemptStart k t0 ∈ (scrapeAux engine shot t a n).2 → t0 = t := by
  intro n
  induction n with
  | zero => intro a k t0 hmem; simp [scrapeAux] at hmem
  | succ r ih =>
    intro a k t0 hmem
    cases h : attemptValue (engine a) with
    | some v =>
      rw [scrapeAux_succ_some h] at hmem
      simp at hmem
      exact hmem.2
    | none =>
      by_cases hshot : shot a = ScreenshotOutcome.dirFailed
      · rw [scrapeAux_succ_dirfail h hshot] at hmem
        simp at hmem
        exact hmem.2
      · rw [scrapeAux_succ_none h hshot] at hmem
        simp at hmem
        rcases hmem with ⟨_, h2⟩ | hrest
        · exact h2
        · exact ih (a + 1) k t0 hrest

/-- A raised fault of the loop can only come from a screenshot whose
directory creation failed. -/
lemma scrapeAux_error_origin (engine : ℕ → EngineOutcome)
    (shot : ℕ → ScreenshotOutcome) (t : ℕ) : ∀ n a e,
    (scrapeAux engine shot t a n).1 = Except.error e →
    ∃ k, shot k = ScreenshotOutcome.dirFailed := by
  intro n
  induction n with
  | zero => intro a e h; exact absurd h (by simp [scrapeAux])
  | succ r ih =>
    intro a e h
    cases hv : attemptValue (engine a) with
    | some v =>
      rw [scrapeAux_succ_some hv] at h
      exact absurd h (by simp)
    | none =>
      by_cases hshot : shot a = ScreenshotOutcome.dirFailed
      · exact ⟨a, hshot⟩
      · rw [scrapeAux_succ_none hv hshot] at h
        exact ih (a + 1) e h

/-! Basic list lemmas for the normalization proofs. -/

lemma takeWhile_all {p : Char → Bool} : ∀ {l : List Char}, (∀ c ∈ l, p c = true) →
    l.takeWhile p = l := by
  intro l h
  induction l with
  | nil => rfl
  | cons c cs ih =>
    rw [List.takeWhile_cons]
    simp [h c (List.mem_cons_self c cs),
      ih (fun x hx => h x (List.mem_cons_of_mem c hx))]

lemma mem_of_mem_takeWhile {p : Char → Bool} : ∀ {l : List Char} {c : Char},
    c ∈ l.takeWhile p → c ∈ l := by
  intro l
  induction l with
  | nil => intro c h; simpa using h
  | cons a t ih =>
    intro c h
    rw [List.takeWhile_cons] at h
    by_cases hp : p a = true
    · rw [if_pos hp] at h
      rcases List.mem_cons.mp h with rfl | h2
      · exact List.mem_cons_self _ _
      · exact List.mem_cons_of_mem _ (ih h2)
    · rw [if_neg hp] at h
      simp at h

lemma dropWhile_all_not {p : Char → Bool} {l : List Char}
    (h : ∀ c ∈ l, p c = false) : l.dropWhile p = l := by
  cases l with
  | nil => rfl
  | cons a t =>
    rw [List.dropWhile_cons, h a (List.mem_cons_self a t)]
    simp

lemma mem_of_mem_dropWhile {p : Char → Bool} : ∀ {l : List Char} {c : Char},
    c ∈ l.dropWhile p → c ∈ l := by
  intro l
  induction l with
  | nil => intro c h; simpa using h
  | cons a t ih =>
    intro c h
    rw [List.dropWhile_cons] at h
    by_cases hp : p a = true
    · rw [if_pos hp] at h
      exact List.mem_cons_of_mem _ (ih h)
    · rw [if_neg hp] at h
      exact h

lemma mem_dropWhile_of_not {p : Char → Bool} : ∀ {l : List Char} {c : Char},
    c ∈ l → p c = false → c ∈ l.dropWhile p := by
  intro l
  induction l with
  | nil => intro c h; simp at h
  | cons a t ih =>
    intro c h hc
    rw [List.dropWhile_cons]
    by_cases hp : p a = true
    · rw [if_pos hp]
      rcases List.mem_cons.mp h with rfl | h2
      · rw [hc] at hp; exact absurd hp (by decide)
      · exact ih h2 hc
    · rw [if_neg hp]
      exact h

lemma pyStrip_id {l : List Char} (h : ∀ c ∈ l, isPySpace c = false) :
    pyStrip l = l := by
  unfold pyStrip
  rw [dropWhile_all_not h,
    dropWhile_all_not (fun c hc => h c (List.mem_reverse.mp hc)),
    List.reverse_reverse]

lemma mem_of_mem_pyStrip {l : List Char} {c : Char} (h : c ∈ pyStrip l) : c ∈ l := by
  unfold pyStrip at h
  rw [List.mem_reverse] at h
  have h1 := mem_of_mem_dropWhile h
  rw [List.mem_reverse] at h1
  exact mem_of_mem_dropWhile h1

lemma mem_pyStrip_of_not {l : List Char} {c : Char} (hc : c ∈ l)
    (hp : isPySpace c = false) : c ∈ pyStrip l := by
  unfold pyStrip
  rw [List.mem_reverse]
  exact mem_dropWhile_of_not (List.mem_reverse.mpr (mem_dropWhile_of_not hc hp)) hp

lemma isPrefixOf_mem_subset : ∀ {l1 l2 : List Char}, l1.isPrefixOf l2 = true →
    ∀ {x : Char}, x ∈ l1 → x ∈ l2 := by
  intro l1
  induction l1 with
  | nil => intro l2 _ x hx; simp at hx
  | cons a t ih =>
    intro l2 hp x hx
    cases l2 with
    | nil => simp [List.isPrefixOf] at hp
    | cons b u =>
      rw [List.isPrefixOf, Bool.and_eq_true, beq_iff_eq] at hp
      rcases List.mem_cons.mp hx with rfl | h2
      · rw [hp.1]; exact List.mem_cons_self _ _
      · exact List.mem_cons_of_mem _ (ih hp.2 h2)

lemma removeAllAux_id {pat : List Char} {c0 : Char} (hc : c0 ∈ pat) :
    ∀ (fuel : ℕ) (s : List Char), c0 ∉ s → removeAllAux pat fuel s = s := by
  intro fuel
  induction fuel with
  | zero => intro s hs; cases s <;> rfl
  | succ f ih =>
    intro s hs
    cases s with
    | nil => rfl
    | cons c cs =>
      rw [removeAllAux]
      have hpre : ¬ (pat ≠ [] ∧ pat.isPrefixOf (c :: cs) = true) := by
        rintro ⟨_, hp⟩
        exact hs (isPrefixOf_mem_subset hp hc)
      rw [if_neg hpre, ih cs (fun h => hs (List.mem_cons_of_mem c h))]

lemma removeAll_id {pat s : List Char} {c0 : Char} (hc : c0 ∈ pat)
    (hn : c0 ∉ s) : removeAll pat s = s :=
  removeAllAux_id hc s.length s hn

lemma foldl_removeAll_id : ∀ (pats : List (List Char)) (s : List Char),
    (∀ pat ∈ pats, ∃ c0, c0 ∈ pat ∧ c0 ∉ s) →
    pats.foldl (fun acc pat => removeAll pat acc) s = s := by
  intro pats
  induction pats with
  | nil => intro s _; rfl
  | cons p ps ih =>
    intro s h
    rw [List.foldl_cons]
    obtain ⟨c0, hcp, hcs⟩ := h p (List.mem_cons_self p ps)
    rw [removeAll_id hcp hcs]
    exact ih s (fun q hq => h q (List.mem_cons_of_mem p hq))

lemma applyReplacements_canon {s : List Char} (h : ∀ c ∈ s, canonChar c = true) :
    applyReplacements s = s := by
  apply foldl_removeAll_id
  intro pat hpat
  have hx : ∀ pat ∈ replacements, ∃ c0, c0 ∈ pat ∧ canonChar c0 = false := by decide
  obtain ⟨c0, hc0, hcc⟩ := hx pat hpat
  refine ⟨c0, hc0, fun hmem => ?_⟩
  rw [h c0 hmem] at hcc
  exact absurd hcc (by decide)


/-! The split theory: pySplit always yields at least one part, parts hold
no separator, and joinSep inverts it. -/

lemma pySplit_ne_nil (a : Char) : ∀ l : List Char, pySplit a l ≠ [] := by
  intro l
  induction l with
  | nil => simp [pySplit]
  | cons c t ih =>
    rw [pySplit]
    by_cases hc : c = a
    · simp [hc]
    · rw [if_neg hc]
      cases h : pySplit a t with
      | nil => simp
      | cons p ps => simp

lemma joinSep_pySplit (a : Char) : ∀ l : List Char, joinSep a (pySplit a l) = l := by
  intro l
  induction l with
  | nil => rfl
  | cons c t ih =>
    by_cases hc : c = a
    · subst hc
      rw [pySplit, if_pos rfl]
      cases h : pySplit c t with
      | nil => exact absurd h (pySplit_ne_nil c t)
      | cons p ps =>
        rw [h] at ih
        have he : joinSep c ([] :: p :: ps) = [] ++ c :: joinSep c (p :: ps) := rfl
        rw [he, ih]
        rfl
    · rw [pySplit, if_neg hc]
      cases h : pySplit a t with
      | nil => exact absurd h (pySplit_ne_nil a t)
      | cons p ps =>
        rw [h] at ih
        cases ps with
        | nil =>
          simp only [joinSep] at ih ⊢
          rw [ih]
        | cons q qs =>
          simp only [joinSep] at ih ⊢
          rw [List.cons_append, ih]

lemma pySplit_sep_not_mem (a : Char) : ∀ (l : List Char) (p : List Char),
    p ∈ pySplit a l → a ∉ p := by
  intro l
  induction l with
  | nil =>
    intro p hp ha
    simp [pySplit] at hp
    subst hp
    simp at ha
  | cons c t ih =>
    intro p hp ha
    by_cases hc : c = a
    · subst hc
      rw [pySplit, if_pos rfl] at hp
      rcases List.mem_cons.mp hp with rfl | h2
      · simp at ha
      · exact ih p h2 ha
    · rw [pySplit, if_neg hc] at hp
      cases h : pySplit a t with
      | nil => exact absurd h (pySplit_ne_nil a t)
      | cons q qs =>
        rw [h] at hp
        rcases List.mem_cons.mp hp with rfl | h2
        · rcases List.mem_cons.mp ha with h3 | h3
          · exact hc h3.symm
          · exact ih q (by rw [h]; exact List.mem_cons_self q qs) h3
        · exact ih p (by rw [h]; exact List.mem_cons_of_mem q h2) ha

lemma pySplit_mem_exists {a : Char} : ∀ {l : List Char} {c : Char}, c ∈ l → c ≠ a →
    ∃ p ∈ pySplit a l, c ∈ p := by
  intro l
  induction l with
  | nil => intro c h; simp at h
  | cons b t ih =>
    intro c hc hne
    by_cases hb : b = a
    · subst hb
      rw [pySplit, if_pos rfl]
      rcases List.mem_cons.mp hc with rfl | h2
      · exact absurd rfl hne
      · obtain ⟨p, hp, hcp⟩ := ih h2 hne
        exact ⟨p, List.mem_cons_of_mem _ hp, hcp⟩
    · rw [pySplit, if_neg hb]
      cases h : pySplit a t with
      | nil => exact absurd h (pySplit_ne_nil a t)
      | cons q qs =>
        rcases List.mem_cons.mp hc with rfl | h2
        · exact ⟨c :: q, List.mem_cons_self _ _, List.mem_cons_self _ _⟩
        · obtain ⟨p, hp, hcp⟩ := ih h2 hne
          rw [h] at hp
          rcases List.mem_cons.mp hp with rfl | h3
          · exact ⟨b :: p, List.mem_cons_self _ _, List.mem_cons_of_mem _ hcp⟩
          · exact ⟨p, List.mem_cons_of_mem _ h3, hcp⟩

lemma pySplit_single {a : Char} : ∀ {l : List Char}, a ∉ l → pySplit a l = [l] := by
  intro l
  induction l with
  | nil => intro h; rfl
  | cons c t ih =>
    intro h
    have hc : c ≠ a := fun e => h (e ▸ List.mem_cons_self c t)
    rw [pySplit, if_neg hc, ih (fun hm => h (List.mem_cons_of_mem c hm))]

lemma pySplit_append {a : Char} : ∀ {l1 l2 : List Char}, a ∉ l1 →
    pySplit a (l1 ++ a :: l2) = l1 :: pySplit a l2 := by
  intro l1
  induction l1 with
  | nil =>
    intro l2 _
    rw [List.nil_append, pySplit, if_pos rfl]
  | cons c t ih =>
    intro l2 h
    have hc : c ≠ a := fun e => h (e ▸ List.mem_cons_self c t)
    rw [List.cons_append, pySplit, if_neg hc,
      ih (fun hm => h (List.mem_cons_of_mem c hm))]

lemma pySplit_eq_one {a : Char} {s ds : List Char} (h : pySplit a s = [ds]) :
    s = ds := by
  have h2 := joinSep_pySplit a s
  rw [h] at h2
  simp only [joinSep] at h2
  exact h2.symm

lemma pySplit_eq_two {a : Char} {s ds fs : List Char}
    (h : pySplit a s = [ds, fs]) : s = ds ++ a :: fs := by
  have h2 := joinSep_pySplit a s
  rw [h] at h2
  simp only [joinSep] at h2
  exact h2.symm


/-! Character class facts and the structure of canonical strings. -/

lemma allDigits_mem {l : List Char} (h : allDigits l = true) {c : Char}
    (hc : c ∈ l) : c.isDigit = true := by
  have := List.all_eq_true.mp h c hc
  simpa using this

lemma allDigits_of {l : List Char} (h : ∀ c ∈ l, c.isDigit = true) :
    allDigits l = true :=
  List.all_eq_true.mpr (fun c hc => by simpa using h c hc)

lemma not_mem_of_digits {l : List Char} (h : allDigits l = true) {c : Char}
    (hc : c.isDigit = false) : c ∉ l := fun hm => by
  rw [allDigits_mem h hm] at hc
  exact absurd hc (by decide)

lemma digit_ne_sign {c : Char} (h : c.isDigit = true) : c ≠ '+' ∧ c ≠ '-' :=
  ⟨fun e => absurd (e ▸ h) (by decide), fun e => absurd (e ▸ h) (by decide)⟩

lemma numClass_digit {c : Char} (h1 : numClass c = true)
    (h2 : isSepChar c = false) : c.isDigit = true := by
  rw [numClass, Bool.or_eq_true, Bool.or_eq_true] at h1
  rcases h1 with (hd | hc) | hc
  · exact hd
  · rw [beq_iff_eq] at hc; subst hc; exact absurd h2 (by decide)
  · rw [beq_iff_eq] at hc; subst hc; exact absurd h2 (by decide)

lemma digit_numClass {c : Char} (h : c.isDigit = true) : numClass c = true := by
  rw [numClass, h]
  rfl

lemma digit_not_sep {c : Char} (h : c.isDigit = true) : isSepChar c = false := by
  have h1 : c ≠ ',' := fun e => absurd (e ▸ h) (by decide)
  have h2 : c ≠ '.' := fun e => absurd (e ▸ h) (by decide)
  rw [isSepChar]
  simp [h1, h2]

lemma canonChar_digit {c : Char} (h : c.isDigit = true) : canonChar c = true := by
  rw [canonChar, h]
  rfl

lemma canonChar_not_space {c : Char} (h : canonChar c = true) :
    isPySpace c = false := by
  cases hb : isPySpace c with
  | false => rfl
  | true =>
    exfalso
    have hmem : c ∈ spaceChars := by
      rw [isPySpace] at hb
      simpa using hb
    have hall : ∀ c0 ∈ spaceChars, canonChar c0 = false := by decide
    rw [hall c hmem] at h
    exact absurd h (by decide)

lemma canonBody_shape {s : List Char} (h : canonBody s = true) :
    (s ≠ [] ∧ allDigits s = true) ∨
      ∃ ds fs, s = ds ++ '.' :: fs ∧ allDigits ds = true ∧ fs ≠ [] ∧
        allDigits fs = true := by
  rw [canonBody] at h
  cases hsp : pySplit '.' s with
  | nil => rw [hsp] at h; simp at h
  | cons p ps =>
    cases ps with
    | nil =>
      rw [hsp] at h
      rw [Bool.and_eq_true, Bool.not_eq_true'] at h
      left
      have hsd := pySplit_eq_one hsp
      subst hsd
      refine ⟨?_, h.2⟩
      intro he
      rw [he] at h
      exact absurd h.1 (by decide)
    | cons q qs =>
      cases qs with
      | nil =>
        rw [hsp] at h
        rw [Bool.and_eq_true, Bool.and_eq_true, Bool.not_eq_true'] at h
        right
        refine ⟨p, q, pySplit_eq_two hsp, h.1, ?_, h.2.2⟩
        intro he
        rw [he] at h
        exact absurd h.2.1 (by decide)
      | cons r rs =>
        rw [hsp] at h
        simp at h

lemma canonBody_digits {l : List Char} (hne : l ≠ []) (hd : allDigits l = true) :
    canonBody l = true := by
  rw [canonBody, pySplit_single (not_mem_of_digits hd (by decide))]
  have he : l.isEmpty = false := by
    cases l with
    | nil => exact absurd rfl hne
    | cons _ _ => rfl
  show (!l.isEmpty && allDigits l) = true
  rw [he, hd]
  rfl

lemma canonBody_frac {ds fs : List Char} (hds : allDigits ds = true)
    (hfs : fs ≠ []) (hfd : allDigits fs = true) :
    canonBody (ds ++ '.' :: fs) = true := by
  rw [canonBody, pySplit_append (not_mem_of_digits hds (by decide)),
    pySplit_single (not_mem_of_digits hfd (by decide))]
  have he : fs.isEmpty = false := by
    cases fs with
    | nil => exact absurd rfl hfs
    | cons _ _ => rfl
  show (allDigits ds && (!fs.isEmpty && allDigits fs)) = true
  rw [hds, he, hfd]
  rfl

lemma isCanonical_sign_body {sign rest : List Char}
    (hs : sign = [] ∨ sign = ['+'] ∨ sign = ['-'])
    (hb : canonBody rest = true)
    (hhead : ∀ c, rest.head? = some c → c ≠ '+' ∧ c ≠ '-') :
    isCanonical (sign ++ rest) = true := by
  rcases hs with rfl | rfl | rfl
  · rw [List.nil_append]
    cases rest with
    | nil => rw [show canonBody [] = false by decide] at hb; exact absurd hb (by decide)
    | cons c t =>
      have hc := hhead c rfl
      rw [isCanonical, if_neg ?_]
      · exact hb ▸ rfl
      · rintro (rfl | rfl)
        · exact hc.1 rfl
        · exact hc.2 rfl
  · show isCanonical ('+' :: rest) = true
    rw [isCanonical, if_pos (Or.inl rfl)]
    exact hb
  · show isCanonical ('-' :: rest) = true
    rw [isCanonical, if_pos (Or.inr rfl)]
    exact hb

lemma isCanonical_sign_digits {sign rest : List Char}
    (hs : sign = [] ∨ sign = ['+'] ∨ sign = ['-'])
    (hne : rest ≠ []) (hd : allDigits rest = true) :
    isCanonical (sign ++ rest) = true := by
  refine isCanonical_sign_body hs (canonBody_digits hne hd) ?_
  intro c hc
  cases rest with
  | nil => simp at hc
  | cons b t =>
    rw [List.head?] at hc
    injection hc with hc
    subst hc
    exact digit_ne_sign (allDigits_mem hd (List.mem_cons_self _ _))

/-! The rfind lemmas. -/

lemma rfind_not_mem {c : Char} : ∀ {l : List Char}, c ∉ l → rfind c l = -1 := by
  intro l
  induction l with
  | nil => intro _; rfl
  | cons a t ih =>
    intro h
    have ht : rfind c t = -1 := ih (fun hm => h (List.mem_cons_of_mem a hm))
    have ha : a ≠ c := fun e => h (e ▸ List.mem_cons_self a t)
    rw [rfind]
    simp [ht, ha]

lemma rfind_last {c : Char} : ∀ (l1 l2 : List Char), c ∉ l2 →
    rfind c (l1 ++ c :: l2) = l1.length := by
  intro l1
  induction l1 with
  | nil =>
    intro l2 h
    rw [List.nil_append, rfind]
    simp [rfind_not_mem h]
  | cons a t ih =>
    intro l2 h
    have ht := ih l2 h
    rw [List.cons_append, rfind]
    simp only [ht]
    rw [if_pos (by positivity)]
    simp only [List.length_cons]
    push_cast
    ring

lemma rfind_nonneg_of_mem {c : Char} : ∀ {l : List Char}, c ∈ l → 0 ≤ rfind c l := by
  intro l
  induction l with
  | nil => intro h; simp at h
  | cons a t ih =>
    intro h
    rw [rfind]
    by_cases hm : c ∈ t
    · have h1 := ih hm
      rw [if_pos h1]
      omega
    · have hac : a = c := by
        rcases List.mem_cons.mp h with rfl | h2
        · rfl
        · exact absurd h2 hm
      have ht : rfind c t = -1 := rfind_not_mem hm
      simp [ht, hac]

lemma rfind_ge_of_mem_right {c : Char} : ∀ (l1 l2 : List Char), c ∈ l2 →
    (l1.length : ℤ) ≤ rfind c (l1 ++ l2) := by
  intro l1
  induction l1 with
  | nil =>
    intro l2 h
    simpa using rfind_nonneg_of_mem h
  | cons a t ih =>
    intro l2 h
    have h1 := ih l2 h
    have h0 : (0 : ℤ) ≤ rfind c (t ++ l2) := le_trans (by positivity) h1
    rw [List.cons_append, rfind]
    rw [if_pos h0]
    simp only [List.length_cons]
    push_cast
    omega


/-! Structure of the extracted numeric run, and the range step. -/

lemma extractNumber_cons (c : Char) (l : List Char) :
    extractNumber (c :: l) =
      if numClass c then some (c :: l.takeWhile numClass)
      else if c = '+' ∨ c = '-' then
        match l with
        | [] => none
        | b :: l2 =>
          if numClass b then some (c :: b :: l2.takeWhile numClass)
          else extractNumber l
      else extractNumber l := rfl

lemma extractNumber_shape : ∀ {s ns : List Char}, extractNumber s = some ns →
    ∃ sign run, (sign = [] ∨ sign = ['+'] ∨ sign = ['-']) ∧ ns = sign ++ run ∧
      run ≠ [] ∧ (∀ c ∈ run, numClass c = true) ∧ ∀ c ∈ ns, c ∈ s := by
  intro s
  induction s with
  | nil => intro ns h; simp [extractNumber] at h
  | cons c l ih =>
    intro ns h
    rw [extractNumber_cons] at h
    by_cases h1 : numClass c = true
    · rw [if_pos h1, Option.some.injEq] at h
      subst h
      refine ⟨[], c :: l.takeWhile numClass, Or.inl rfl, rfl, by simp, ?_, ?_⟩
      · intro x hx
        rcases List.mem_cons.mp hx with rfl | hx2
        · exact h1
        · simpa using List.mem_takeWhile_imp hx2
      · intro x hx
        rcases List.mem_cons.mp hx with rfl | hx2
        · exact List.mem_cons_self _ _
        · exact List.mem_cons_of_mem _ (mem_of_mem_takeWhile hx2)
    · rw [if_neg h1] at h
      by_cases h2 : c = '+' ∨ c = '-'
      · rw [if_pos h2] at h
        cases l with
        | nil => simp at h
        | cons b l2 =>
          have hmatch :
              (if numClass b then some (c :: b :: l2.takeWhile numClass)
                else extractNumber (b :: l2)) = some ns := h
          by_cases h3 : numClass b = true
          · rw [if_pos h3, Option.some.injEq] at hmatch
            subst hmatch
            refine ⟨[c], b :: l2.takeWhile numClass, ?_, rfl, by simp, ?_, ?_⟩
            · rcases h2 with rfl | rfl
              · exact Or.inr (Or.inl rfl)
              · exact Or.inr (Or.inr rfl)
            · intro x hx
              rcases List.mem_cons.mp hx with rfl | hx2
              · exact h3
              · simpa using List.mem_takeWhile_imp hx2
            · intro x hx
              rcases List.mem_cons.mp hx with rfl | hx2
              · exact List.mem_cons_self _ _
              · rcases List.mem_cons.mp hx2 with rfl | hx3
                · exact List.mem_cons_of_mem _ (List.mem_cons_self _ _)
                · exact List.mem_cons_of_mem _
                    (List.mem_cons_of_mem _ (mem_of_mem_takeWhile hx3))
          · rw [if_neg h3] at hmatch
            obtain ⟨sign, run, hs, hns, hrun, hcls, hmem⟩ := ih hmatch
            exact ⟨sign, run, hs, hns, hrun, hcls,
              fun x hx => List.mem_cons_of_mem _ (hmem x hx)⟩
      · rw [if_neg h2] at h
        obtain ⟨sign, run, hs, hns, hrun, hcls, hmem⟩ := ih h
        exact ⟨sign, run, hs, hns, hrun, hcls,
          fun x hx => List.mem_cons_of_mem _ (hmem x hx)⟩

lemma extractNumber_full {sign : List Char} {b : Char} {bs : List Char}
    (hs : sign = [] ∨ sign = ['+'] ∨ sign = ['-'])
    (hb : numClass b = true) (hbs : ∀ c ∈ bs, numClass c = true) :
    extractNumber (sign ++ b :: bs) = some (sign ++ b :: bs) := by
  rcases hs with rfl | rfl | rfl
  · rw [List.nil_append, extractNumber_cons, if_pos hb, takeWhile_all hbs]
  · show extractNumber ('+' :: b :: bs) = _
    rw [extractNumber_cons, if_neg (by decide), if_pos (Or.inl rfl)]
    show (if numClass b then some ('+' :: b :: bs.takeWhile numClass)
        else extractNumber (b :: bs)) = some (['+'] ++ b :: bs)
    rw [if_pos hb, takeWhile_all hbs]
    rfl
  · show extractNumber ('-' :: b :: bs) = _
    rw [extractNumber_cons, if_neg (by decide), if_pos (Or.inr rfl)]
    show (if numClass b then some ('-' :: b :: bs.takeWhile numClass)
        else extractNumber (b :: bs)) = some (['-'] ++ b :: bs)
    rw [if_pos hb, takeWhile_all hbs]
    rfl

lemma filter_all_true {p : Char → Bool} {l : List Char}
    (h : ∀ c ∈ l, p c = true) : l.filter p = l :=
  List.filter_eq_self.mpr (fun c hc => by simpa using h c hc)

lemma filter_all_false {p : Char → Bool} {l : List Char}
    (h : ∀ c ∈ l, p c = false) : l.filter p = [] :=
  List.filter_eq_nil_iff.mpr (fun c hc => by simp [h c hc])

lemma rangeStep_id {s : List Char} (h : '-' ∉ s) : rangeStep s = s := by
  unfold rangeStep
  rw [if_neg]
  intro hc
  exact h (by simpa using hc)

lemma rangeStep_minus_no_digit {s : List Char} (h : '-' ∈ rangeStep s) :
    ∀ c ∈ rangeStep s, c.isDigit = false := by
  by_cases hc : s.contains '-' = true
  · cases hf : ((pySplit '-' s).map pyStrip).find? (fun p => p.any Char.isDigit) with
    | some p =>
      have hr : rangeStep s = p := by
        unfold rangeStep
        rw [if_pos hc, hf]
      exfalso
      rw [hr] at h
      obtain ⟨q, hq, hpq⟩ := List.mem_map.mp (List.mem_of_find?_eq_some hf)
      exact pySplit_sep_not_mem '-' s q hq (mem_of_mem_pyStrip (hpq ▸ h))
    | none =>
      have hr : rangeStep s = s := by
        unfold rangeStep
        rw [if_pos hc, hf]
      rw [hr]
      intro c hcm
      cases hd : c.isDigit with
      | false => rfl
      | true =>
        exfalso
        have hcne : c ≠ '-' := (fun e => absurd (e ▸ hd) (by decide))
        obtain ⟨p, hp, hcp⟩ := pySplit_mem_exists hcm hcne
        have hspace : isPySpace c = false := canonChar_not_space (canonChar_digit hd)
        have hcp2 : c ∈ pyStrip p := mem_pyStrip_of_not hcp hspace
        have hnone := List.find?_eq_none.mp hf (pyStrip p)
          (List.mem_map_of_mem pyStrip hp)
        have hany : (pyStrip p).any Char.isDigit = true :=
          List.any_eq_true.mpr ⟨c, hcp2, by simpa using hd⟩
        simp [hany] at hnone
  · have hr : rangeStep s = s := by
      unfold rangeStep
      rw [if_neg hc]
    rw [hr] at h
    exact absurd (by simpa using h : s.contains '-' = true) hc

lemma normalizeRun_no_sep {ns : List Char} (h : ns.filter isSepChar = []) :
    normalizeRun ns = ns := by
  simp [normalizeRun, h]


/-! Branch analysis of the separator disambiguation. -/

lemma normalizeRun_sep_three {ns : List Char} {i : ℕ}
    (hsep : ¬ ns.filter isSepChar = [])
    (hi : (max (rfind ',' ns) (rfind '.' ns)).toNat = i)
    (h3 : ((ns.drop (i + 1)).filter Char.isDigit).length = 3)
    (h1 : (ns.filter isSepChar).length = 1) :
    normalizeRun ns =
      ((ns.take i).filter (fun c => !(isSepChar c))) ++
        ((ns.drop (i + 1)).filter Char.isDigit) := by
  have hie : (ns.filter isSepChar).isEmpty = false := by
    cases hnsf : ns.filter isSepChar with
    | nil => exact absurd hnsf hsep
    | cons x xs => rfl
  subst hi
  simp only [normalizeRun]
  rw [if_neg (by simp [hie]), if_pos ⟨h3, h1⟩]

lemma normalizeRun_sep_final {ns intPart decPart : List Char} {i : ℕ}
    (hsep : ¬ ns.filter isSepChar = [])
    (hi : (max (rfind ',' ns) (rfind '.' ns)).toNat = i)
    (hint : (ns.take i).filter (fun c => !(isSepChar c)) = intPart)
    (hdec : (ns.drop (i + 1)).filter Char.isDigit = decPart)
    (hnot : ¬(decPart.length = 3 ∧ (ns.filter isSepChar).length = 1)) :
    normalizeRun ns =
      (if intPart.isEmpty && decPart.isEmpty then []
       else
         if isCanonical (if intPart.isEmpty && !(decPart.isEmpty)
             then '0' :: '.' :: decPart
             else if decPart.isEmpty then intPart
               else intPart ++ '.' :: decPart) = true
         then (if intPart.isEmpty && !(decPart.isEmpty)
             then '0' :: '.' :: decPart
             else if decPart.isEmpty then intPart
               else intPart ++ '.' :: decPart)
         else []) := by
  have hie : (ns.filter isSepChar).isEmpty = false := by
    cases hnsf : ns.filter isSepChar with
    | nil => exact absurd hnsf hsep
    | cons x xs => rfl
  subst hi
  subst hint
  subst hdec
  simp only [normalizeRun]
  rw [if_neg (by simp [hie]), if_neg hnot]

lemma normalizeRun_cases {sign run : List Char}
    (hs : sign = [] ∨ sign = ['+'] ∨ sign = ['-'])
    (hrun : run ≠ []) (hcls : ∀ c ∈ run, numClass c = true) :
    normalizeRun (sign ++ run) = [] ∨
      (isCanonical (normalizeRun (sign ++ run)) = true ∧
        ('-' ∈ normalizeRun (sign ++ run) →
          sign = ['-'] ∧ ∃ c ∈ run, c.isDigit = true)) := by
  by_cases hsep : (sign ++ run).filter isSepChar = []
  · right
    rw [normalizeRun_no_sep hsep]
    have hrd : ∀ c ∈ run, c.isDigit = true := by
      intro c hc
      have hsepc : isSepChar c = false := by
        have := List.filter_eq_nil_iff.mp hsep c (List.mem_append.mpr (Or.inr hc))
        simpa using this
      exact numClass_digit (hcls c hc) hsepc
    refine ⟨isCanonical_sign_digits hs hrun (allDigits_of hrd), ?_⟩
    intro hm
    rcases List.mem_append.mp hm with hm1 | hm1
    · constructor
      · rcases hs with rfl | rfl | rfl
        · simp at hm1
        · rw [List.mem_singleton] at hm1
          exact absurd hm1 (by decide)
        · rfl
      · cases hrunl : run with
        | nil => exact absurd hrunl hrun
        | cons r rs =>
          exact ⟨r, by simp [hrunl], hrd r (by simp [hrunl])⟩
    · exact absurd (hrd '-' hm1) (by decide)
  · have hsignsep : ∀ c ∈ sign, isSepChar c = false := by
      rcases hs with rfl | rfl | rfl
      · intro c hc; simp at hc
      · intro c hc; rw [List.mem_singleton] at hc; subst hc; decide
      · intro c hc; rw [List.mem_singleton] at hc; subst hc; decide
    have hexists : ∃ c0 ∈ run, isSepChar c0 = true := by
      by_contra hno
      push_neg at hno
      apply hsep
      apply filter_all_false
      intro c hc
      rcases List.mem_append.mp hc with h1 | h1
      · exact hsignsep c h1
      · exact Bool.eq_false_iff.mpr (hno c h1)
    obtain ⟨c0, hc0run, hc0sep⟩ := hexists
    have hc0or : c0 = ',' ∨ c0 = '.' := by
      rw [isSepChar, Bool.or_eq_true, beq_iff_eq, beq_iff_eq] at hc0sep
      exact hc0sep
    have hge : (sign.length : ℤ) ≤
        max (rfind ',' (sign ++ run)) (rfind '.' (sign ++ run)) := by
      rcases hc0or with rfl | rfl
      · exact le_trans (rfind_ge_of_mem_right sign run hc0run) (le_max_left _ _)
      · exact le_trans (rfind_ge_of_mem_right sign run hc0run) (le_max_right _ _)
    set i := (max (rfind ',' (sign ++ run)) (rfind '.' (sign ++ run))).toNat
      with hidef
    have hile : sign.length ≤ i := by omega
    have htake : (sign ++ run).take i = sign ++ run.take (i - sign.length) := by
      rw [List.take_append_eq_append_take, List.take_of_length_le hile]
    have hint : ((sign ++ run).take i).filter (fun c => !(isSepChar c)) =
        sign ++ (run.take (i - sign.length)).filter (fun c => !(isSepChar c)) := by
      rw [htake, List.filter_append]
      congr 1
      exact filter_all_true (fun c hc => by rw [hsignsep c hc]; rfl)
    set ipr := (run.take (i - sign.length)).filter (fun c => !(isSepChar c))
      with hiprdef
    have hiprdig : ∀ c ∈ ipr, c.isDigit = true := by
      intro c hc
      rw [hiprdef] at hc
      have hm := List.mem_filter.mp hc
      have h1 := hcls c (List.take_subset _ _ hm.1)
      have h2 : isSepChar c = false := by
        have := hm.2
        simpa using this
      exact numClass_digit h1 h2
    have hiprmem : ∀ c ∈ ipr, c ∈ run := by
      intro c hc
      rw [hiprdef] at hc
      exact List.take_subset _ _ (List.mem_filter.mp hc).1
    set dp := ((sign ++ run).drop (i + 1)).filter Char.isDigit with hdpdef
    have hdpdig : ∀ c ∈ dp, c.isDigit = true := by
      intro c hc
      rw [hdpdef] at hc
      have := (List.mem_filter.mp hc).2
      simpa using this
    have hdprun : ∀ c ∈ dp, c ∈ run := by
      intro c hc
      have hdig := hdpdig c hc
      rw [hdpdef] at hc
      have hmem : c ∈ sign ++ run := List.drop_subset _ _ (List.mem_filter.mp hc).1
      rcases List.mem_append.mp hmem with h1 | h1
      · exfalso
        rcases hs with rfl | rfl | rfl
        · simp at h1
        · rw [List.mem_singleton] at h1; subst h1; exact absurd hdig (by decide)
        · rw [List.mem_singleton] at h1; subst h1; exact absurd hdig (by decide)
      · exact h1
    by_cases h31 : dp.length = 3 ∧ ((sign ++ run).filter isSepChar).length = 1
    · right
      have h3raw : ((((sign ++ run)).drop (i + 1)).filter Char.isDigit).length = 3 := by
        rw [← hdpdef]; exact h31.1
      have hout := normalizeRun_sep_three hsep hidef.symm h3raw h31.2
      rw [hout, hint, ← hdpdef]
      have hdpne : ipr ++ dp ≠ [] := by
        intro he
        have h0 : dp = [] := (List.append_eq_nil.mp he).2
        rw [h0] at h31
        simp at h31
      constructor
      · rw [List.append_assoc]
        apply isCanonical_sign_digits hs hdpne
        apply allDigits_of
        intro c hc
        rcases List.mem_append.mp hc with h1 | h1
        · exact hiprdig c h1
        · exact hdpdig c h1
      · intro hm
        have hmm : '-' ∈ sign := by
          rcases List.mem_append.mp hm with h1 | h1
          · rcases List.mem_append.mp h1 with h2 | h2
            · exact h2
            · exact absurd (hiprdig _ h2) (by decide)
          · exact absurd (hdpdig _ h1) (by decide)
        constructor
        · rcases hs with rfl | rfl | rfl
          · simp at hmm
          · rw [List.mem_singleton] at hmm; exact absurd hmm (by decide)
          · rfl
        · cases hdp : dp with
          | nil => rw [hdp] at h31; simp at h31
          | cons d dt =>
            exact ⟨d, hdprun d (by simp [hdp]), hdpdig d (by simp [hdp])⟩
    · have hout := normalizeRun_sep_final hsep hidef.symm hint hdpdef.symm h31
      rw [hout]
      by_cases hb1 : ((sign ++ ipr).isEmpty && dp.isEmpty) = true
      · left
        rw [if_pos hb1]
      · rw [if_neg hb1]
        by_cases hb2 : isCanonical (if (sign ++ ipr).isEmpty && !(dp.isEmpty)
            then '0' :: '.' :: dp
            else if dp.isEmpty then sign ++ ipr
              else (sign ++ ipr) ++ '.' :: dp) = true
        · right
          rw [if_pos hb2]
          refine ⟨hb2, ?_⟩
          intro hm
          by_cases hb3 : ((sign ++ ipr).isEmpty && !(dp.isEmpty)) = true
          · rw [if_pos hb3] at hm
            exfalso
            rcases List.mem_cons.mp hm with h1 | h1
            · exact absurd h1 (by decide)
            rcases List.mem_cons.mp h1 with h2 | h2
            · exact absurd h2 (by decide)
            · exact absurd (hdpdig _ h2) (by decide)
          · rw [if_neg hb3] at hm hb2
            have hmm : '-' ∈ sign := by
              by_cases hdpe : dp.isEmpty = true
              · rw [if_pos hdpe] at hm
                rcases List.mem_append.mp hm with h1 | h1
                · exact h1
                · exact absurd (hiprdig _ h1) (by decide)
              · rw [if_neg hdpe] at hm
                rcases List.mem_append.mp hm with h1 | h1
                · rcases List.mem_append.mp h1 with h2 | h2
                  · exact h2
                  · exact absurd (hiprdig _ h2) (by decide)
                · rcases List.mem_cons.mp h1 with h2 | h2
                  · exact absurd h2 (by decide)
                  · exact absurd (hdpdig _ h2) (by decide)
            have hsm : sign = ['-'] := by
              rcases hs with rfl | rfl | rfl
              · simp at hmm
              · rw [List.mem_singleton] at hmm; exact absurd hmm (by decide)
              · rfl
            refine ⟨hsm, ?_⟩
            by_cases hdpe : dp.isEmpty = true
            · cases hipr : ipr with
              | nil =>
                exfalso
                rw [if_pos hdpe, hsm, hipr, List.append_nil] at hb2
                exact absurd hb2 (by decide)
              | cons x xs =>
                exact ⟨x, hiprmem x (by simp [hipr]), hiprdig x (by simp [hipr])⟩
            · cases hdp : dp with
              | nil =>
                exfalso
                exact hdpe (by rw [hdp]; rfl)
              | cons d dt =>
                exact ⟨d, hdprun d (by simp [hdp]), hdpdig d (by simp [hdp])⟩
        · left
          rw [if_neg hb2]


/-! Nonnegativity of parsed values. -/

lemma ratBody_nonneg (s : List Char) : 0 ≤ ratBody s := by
  unfold ratBody
  cases hsp : pySplit '.' s with
  | nil => simp
  | cons p ps =>
    cases ps with
    | nil => positivity
    | cons q qs =>
      cases qs with
      | nil => positivity
      | cons r rs => simp

lemma ratOfCanonical_nonneg {s : List Char} (h : '-' ∉ s) :
    0 ≤ ratOfCanonical s := by
  cases s with
  | nil => simp [ratOfCanonical]
  | cons c rest =>
    rw [ratOfCanonical]
    have hc : c ≠ '-' := fun e => h (e ▸ List.mem_cons_self c rest)
    rw [if_neg hc]
    by_cases hp : c = '+'
    · rw [if_pos hp]
      exact ratBody_nonneg rest
    · rw [if_neg hp]
      exact ratBody_nonneg (c :: rest)

lemma clean_price_no_minus_all (s : List Char) : '-' ∉ clean_price s := by
  intro hmem
  unfold clean_price at hmem
  cases hex : extractNumber (rangeStep (applyReplacements (pyStrip s))) with
  | none => rw [hex] at hmem; simp at hmem
  | some ns =>
    rw [hex] at hmem
    obtain ⟨sign, run, hs, hns, hrun, hcls, hsub⟩ := extractNumber_shape hex
    subst hns
    have hmem2 : '-' ∈ normalizeRun (sign ++ run) := hmem
    rcases normalizeRun_cases hs hrun hcls with h0 | ⟨_, himp⟩
    · rw [h0] at hmem2
      simp at hmem2
    · obtain ⟨hsgn, c, hcrun, hcd⟩ := himp hmem2
      have h1 : '-' ∈ rangeStep (applyReplacements (pyStrip s)) :=
        hsub '-' (List.mem_append.mpr (Or.inl (by simp [hsgn])))
      have h2 := rangeStep_minus_no_digit h1 c
        (hsub c (List.mem_append.mpr (Or.inr hcrun)))
      rw [hcd] at h2
      exact absurd h2 (by decide)

/-- C3: every non-empty string returned by _clean_price, through any of its
return paths, matches the canonical pattern sign? (digits+ or
digits star dot digits+). -/
theorem clean_price_canonical_invariant (s : List Char)
    (h : clean_price s ≠ []) : isCanonical (clean_price s) = true := by
  cases hex : extractNumber (rangeStep (applyReplacements (pyStrip s))) with
  | none =>
    exfalso
    apply h
    unfold clean_price
    rw [hex]
  | some ns =>
    have hcp : clean_price s = normalizeRun ns := by
      unfold clean_price
      rw [hex]
    rw [hcp] at h ⊢
    obtain ⟨sign, run, hs, hns, hrun, hcls, _⟩ := extractNumber_shape hex
    subst hns
    rcases normalizeRun_cases hs hrun hcls with h0 | ⟨hc, _⟩
    · exact absurd h0 h
    · exact hc

theorem clean_price_canonical_invariant_witness :
    clean_price "7 USD".data ≠ [] ∧ isCanonical (clean_price "7 USD".data) = true :=
  ⟨by decide, clean_price_canonical_invariant "7 USD".data (by decide)⟩

/-- C8: the cleaned string never holds a minus sign, so every successfully
parsed price is non-negative, and an input of -5 parses to 5. -/
theorem clean_price_no_minus :
    (∀ s : List Char, '-' ∉ clean_price s) ∧
    (∀ (s : List Char) (v : ℚ), parseVal s = some v → 0 ≤ v) ∧
    parseVal "-5".data = some 5 := by
  refine ⟨clean_price_no_minus_all, ?_, by decide⟩
  intro s v h
  simp only [parseVal] at h
  by_cases he : (clean_price s).isEmpty = true
  · rw [if_pos he] at h
    exact absurd h (by simp)
  · rw [if_neg he, Option.some.injEq] at h
    subst h
    exact ratOfCanonical_nonneg (clean_price_no_minus_all s)

theorem clean_price_no_minus_witness :
    parseVal "-5".data = some 5 ∧ (0 : ℚ) ≤ 5 :=
  ⟨by decide, clean_price_no_minus.2.1 "-5".data 5 (by decide)⟩

/-- C9: when the extracted numeric run is a lone separator followed by
exactly three digits, the thousands rule wins over the leading-zero rule:
the result is the three digits as an integer, in contrast to a two-digit
fraction such as .95 which becomes 0.95. -/
theorem single_sep_three_digits :
    (∀ (s : List Char) (sep : Char) (ds : List Char),
        extractNumber (rangeStep (applyReplacements (pyStrip s))) = some (sep :: ds) →
        isSepChar sep = true → ds.length = 3 → allDigits ds = true →
        clean_price s = ds) ∧
    parseVal ".234".data = some 234 ∧
    parseVal ".95".data = some ((95 : ℚ) / 100) := by
  refine ⟨?_, by decide, ?_⟩
  · intro s sep ds hex hsep h3 hdig
    unfold clean_price
    rw [hex]
    show normalizeRun (sep :: ds) = ds
    have hfds : ds.filter isSepChar = [] :=
      filter_all_false (fun c hc => digit_not_sep (allDigits_mem hdig hc))
    have hseps : (sep :: ds).filter isSepChar = [sep] := by
      rw [List.filter_cons_of_pos (by simpa using hsep), hfds]
    have hsepor : sep = ',' ∨ sep = '.' := by
      rw [isSepChar, Bool.or_eq_true, beq_iff_eq, beq_iff_eq] at hsep
      exact hsep
    have hi : (max (rfind ',' (sep :: ds)) (rfind '.' (sep :: ds))).toNat = 0 := by
      rcases hsepor with rfl | rfl
      · have h1 : rfind ',' (',' :: ds) = 0 := by
          have h0 := @rfind_last ',' [] ds (@not_mem_of_digits ds hdig ',' (by decide))
          simpa using h0
        have h2 : rfind '.' (',' :: ds) = -1 := by
          apply rfind_not_mem
          intro hmem
          rcases List.mem_cons.mp hmem with hx | hx
          · exact absurd hx (by decide)
          · have hd := allDigits_mem hdig hx
            exact absurd hd (by decide)
        rw [h1, h2]
        decide
      · have h1 : rfind '.' ('.' :: ds) = 0 := by
          have h0 := @rfind_last '.' [] ds (@not_mem_of_digits ds hdig '.' (by decide))
          simpa using h0
        have h2 : rfind ',' ('.' :: ds) = -1 := by
          apply rfind_not_mem
          intro hmem
          rcases List.mem_cons.mp hmem with hx | hx
          · exact absurd hx (by decide)
          · have hd := allDigits_mem hdig hx
            exact absurd hd (by decide)
        rw [h1, h2]
        decide
    have hsepne : ¬ (sep :: ds).filter isSepChar = [] := by
      rw [hseps]
      simp
    have h3raw : (((sep :: ds).drop (0 + 1)).filter Char.isDigit).length = 3 := by
      show (ds.filter Char.isDigit).length = 3
      rw [filter_all_true (fun c hc => allDigits_mem hdig hc)]
      exact h3
    have h1len : ((sep :: ds).filter isSepChar).length = 1 := by
      rw [hseps]
      rfl
    have hout := normalizeRun_sep_three hsepne hi h3raw h1len
    rw [hout]
    have htk : ((sep :: ds).take 0).filter (fun c => !(isSepChar c)) = [] := rfl
    rw [htk, List.nil_append]
    show ds.filter Char.isDigit = ds
    exact filter_all_true (fun c hc => allDigits_mem hdig hc)
  · rw [parseVal_eval ".95".data "0.95".data (by decide) (by decide)]
    have hb := ratBody_eval "0.95".data ['0'] ['9', '5'] (by decide)
    have d1 : digitsVal ['0'] = 0 := by decide
    have d2 : digitsVal ['9', '5'] = 95 := by decide
    rw [d1, d2] at hb
    simp only [ratOfCanonical, String.data]
    rw [if_neg (by decide), if_neg (by decide)]
    norm_num [hb]

theorem single_sep_three_digits_witness :
    clean_price ".234".data = "234".data :=
  single_sep_three_digits.1 ".234".data '.' "234".data (by decide) (by decide)
    (by decide) (by decide)

/-- C2 counterexample: the canonical strings 1.234 and -5 do not reparse to
the values they denote: the parser returns 1234 for the first (thousands
rule) and 5 for the second (range splitting eats the sign). -/
theorem canonical_reparse_counterexample :
    isCanonical "1.234".data = true ∧
    parseVal "1.234".data = some 1234 ∧
    ratOfCanonical "1.234".data = (1234 : ℚ) / 1000 ∧
    ¬ parseVal "1.234".data = some (ratOfCanonical "1.234".data) ∧
    isCanonical "-5".data = true ∧
    parseVal "-5".data = some 5 ∧
    ratOfCanonical "-5".data = -5 ∧
    ¬ parseVal "-5".data = some (ratOfCanonical "-5".data) := by
  have hv : ratOfCanonical "1.234".data = (1234 : ℚ) / 1000 := by
    have hb := ratBody_eval "1.234".data ['1'] ['2', '3', '4'] (by decide)
    have d1 : digitsVal ['1'] = 1 := by decide
    have d2 : digitsVal ['2', '3', '4'] = 234 := by decide
    rw [d1, d2] at hb
    simp only [ratOfCanonical, String.data]
    rw [if_neg (by decide), if_neg (by decide)]
    norm_num [hb]
  have hv2 : ratOfCanonical "-5".data = -5 := by decide
  refine ⟨by decide, by decide, hv, ?_, by decide, by decide, hv2, ?_⟩
  · rw [hv, show parseVal "1.234".data = some 1234 from by decide]
    intro hcontra
    rw [Option.some.injEq] at hcontra
    norm_num at hcontra
  · rw [hv2, show parseVal "-5".data = some 5 from by decide]
    intro hcontra
    rw [Option.some.injEq] at hcontra
    norm_num at hcontra


/-! Reparsing canonical strings. -/

lemma stripSign_not_sign {c : Char} {t : List Char} (h1 : c ≠ '+') (h2 : c ≠ '-') :
    stripSign (c :: t) = c :: t := by
  rw [stripSign, if_neg]
  rintro (h | h)
  · exact h1 h
  · exact h2 h

lemma fracPart_eval {sign ds fs : List Char} (hs : sign = [] ∨ sign = ['+'])
    (hds : allDigits ds = true) (hfd : allDigits fs = true) :
    fracPart (sign ++ (ds ++ '.' :: fs)) = fs := by
  have hstrip : stripSign (sign ++ (ds ++ '.' :: fs)) = ds ++ '.' :: fs := by
    rcases hs with rfl | rfl
    · rw [List.nil_append]
      cases ds with
      | nil =>
        rw [List.nil_append]
        exact stripSign_not_sign (by decide) (by decide)
      | cons d dt =>
        have hd := allDigits_mem hds (List.mem_cons_self d dt)
        rw [List.cons_append]
        exact stripSign_not_sign (fun e => absurd (e ▸ hd) (by decide))
          (fun e => absurd (e ▸ hd) (by decide))
    · show stripSign ('+' :: (ds ++ '.' :: fs)) = ds ++ '.' :: fs
      rw [stripSign, if_pos (Or.inl rfl)]
  rw [fracPart, hstrip, @pySplit_append '.' ds fs (@not_mem_of_digits ds hds '.' (by decide)),
    @pySplit_single '.' fs (@not_mem_of_digits fs hfd '.' (by decide))]

lemma reparse_int {sign body : List Char}
    (hs : sign = [] ∨ sign = ['+'])
    (hne : body ≠ []) (hdig : allDigits body = true) :
    parseVal (sign ++ body) = some (ratOfCanonical (sign ++ body)) := by
  have hchars : ∀ c ∈ sign ++ body, canonChar c = true := by
    intro c hc
    rcases List.mem_append.mp hc with h1 | h1
    · rcases hs with rfl | rfl
      · simp at h1
      · rw [List.mem_singleton] at h1; subst h1; decide
    · exact canonChar_digit (allDigits_mem hdig h1)
  have hminus : '-' ∉ sign ++ body := fun hm => absurd (hchars '-' hm) (by decide)
  have h1 : pyStrip (sign ++ body) = sign ++ body :=
    pyStrip_id (fun c hc => canonChar_not_space (hchars c hc))
  have h2 : applyReplacements (sign ++ body) = sign ++ body :=
    applyReplacements_canon hchars
  have h3 : rangeStep (sign ++ body) = sign ++ body := rangeStep_id hminus
  have hsigns : sign = [] ∨ sign = ['+'] ∨ sign = ['-'] :=
    hs.elim Or.inl (fun h => Or.inr (Or.inl h))
  cases hbody : body with
  | nil => exact absurd hbody hne
  | cons b bs =>
    subst hbody
    have h4 : extractNumber (sign ++ b :: bs) = some (sign ++ b :: bs) :=
      extractNumber_full hsigns
        (digit_numClass (allDigits_mem hdig (List.mem_cons_self b bs)))
        (fun c hc => digit_numClass (allDigits_mem hdig (List.mem_cons_of_mem b hc)))
    have h5 : (sign ++ b :: bs).filter isSepChar = [] := by
      apply filter_all_false
      intro c hc
      rcases List.mem_append.mp hc with hx | hx
      · rcases hs with rfl | rfl
        · simp at hx
        · rw [List.mem_singleton] at hx; subst hx; decide
      · exact digit_not_sep (allDigits_mem hdig hx)
    have hcp : clean_price (sign ++ b :: bs) = sign ++ b :: bs := by
      unfold clean_price
      rw [h1, h2, h3, h4]
      exact normalizeRun_no_sep h5
    have hemp : (sign ++ b :: bs).isEmpty = false := by
      rcases hs with rfl | rfl <;> rfl
    simp [parseVal, hcp, hemp]

lemma reparse_frac {sign ds fs : List Char}
    (hs : sign = [] ∨ sign = ['+'])
    (hds : allDigits ds = true) (hfne : fs ≠ []) (hfd : allDigits fs = true)
    (hf3 : fs.length ≠ 3) :
    parseVal (sign ++ (ds ++ '.' :: fs)) =
      some (ratOfCanonical (sign ++ (ds ++ '.' :: fs))) := by
  have hsigns : sign = [] ∨ sign = ['+'] ∨ sign = ['-'] :=
    hs.elim Or.inl (fun h => Or.inr (Or.inl h))
  have hchars : ∀ c ∈ sign ++ (ds ++ '.' :: fs), canonChar c = true := by
    intro c hc
    rcases List.mem_append.mp hc with h1 | h1
    · rcases hs with rfl | rfl
      · simp at h1
      · rw [List.mem_singleton] at h1; subst h1; decide
    · rcases List.mem_append.mp h1 with h2 | h2
      · exact canonChar_digit (allDigits_mem hds h2)
      · rcases List.mem_cons.mp h2 with rfl | h3
        · decide
        · exact canonChar_digit (allDigits_mem hfd h3)
  have hminus : '-' ∉ sign ++ (ds ++ '.' :: fs) :=
    fun hm => absurd (hchars '-' hm) (by decide)
  have hstrip : pyStrip (sign ++ (ds ++ '.' :: fs)) = sign ++ (ds ++ '.' :: fs) :=
    pyStrip_id (fun c hc => canonChar_not_space (hchars c hc))
  have hrepl : applyReplacements (sign ++ (ds ++ '.' :: fs)) =
      sign ++ (ds ++ '.' :: fs) := applyReplacements_canon hchars
  have hrange : rangeStep (sign ++ (ds ++ '.' :: fs)) = sign ++ (ds ++ '.' :: fs) :=
    rangeStep_id hminus
  have hbodyclass : ∀ c ∈ ds ++ '.' :: fs, numClass c = true := by
    intro c hc
    rcases List.mem_append.mp hc with h2 | h2
    · exact digit_numClass (allDigits_mem hds h2)
    · rcases List.mem_cons.mp h2 with rfl | h3
      · decide
      · exact digit_numClass (allDigits_mem hfd h3)
  obtain ⟨b, bs, hd⟩ : ∃ b bs, ds ++ '.' :: fs = b :: bs := by
    cases hds2 : ds ++ '.' :: fs with
    | nil => simp at hds2
    | cons b bs => exact ⟨b, bs, rfl⟩
  have hext : extractNumber (sign ++ (ds ++ '.' :: fs)) =
      some (sign ++ (ds ++ '.' :: fs)) := by
    rw [hd]
    exact extractNumber_full hsigns
      (hbodyclass b (by rw [hd]; exact List.mem_cons_self b bs))
      (fun c hc => hbodyclass c (by rw [hd]; exact List.mem_cons_of_mem b hc))
  have hsignnosep : ∀ c ∈ sign, isSepChar c = false := by
    rcases hs with rfl | rfl
    · intro c hc; simp at hc
    · intro c hc; rw [List.mem_singleton] at hc; subst hc; decide
  have hsepeq : (sign ++ (ds ++ '.' :: fs)).filter isSepChar = ['.'] := by
    rw [List.filter_append, List.filter_append,
      filter_all_false hsignnosep,
      filter_all_false (fun c hc => digit_not_sep (allDigits_mem hds hc)),
      List.filter_cons_of_pos (show isSepChar '.' = true by decide),
      filter_all_false (fun c hc => digit_not_sep (allDigits_mem hfd hc))]
    rfl
  have hrfc : rfind ',' (sign ++ (ds ++ '.' :: fs)) = -1 := by
    apply rfind_not_mem
    intro hm
    exact absurd (hchars ',' hm) (by decide)
  have hrfd : rfind '.' (sign ++ (ds ++ '.' :: fs)) = ((sign ++ ds).length : ℤ) := by
    have h0 := @rfind_last '.' (sign ++ ds) fs (@not_mem_of_digits fs hfd '.' (by decide))
    rw [List.append_assoc] at h0
    exact h0
  have hi : (max (rfind ',' (sign ++ (ds ++ '.' :: fs)))
      (rfind '.' (sign ++ (ds ++ '.' :: fs)))).toNat = (sign ++ ds).length := by
    rw [hrfc, hrfd,
      max_eq_right (show (-1 : ℤ) ≤ ((sign ++ ds).length : ℤ) by omega)]
    omega
  have htake : (sign ++ (ds ++ '.' :: fs)).take ((sign ++ ds).length) =
      sign ++ ds := by
    rw [← List.append_assoc]
    exact List.take_left (sign ++ ds) ('.' :: fs)
  have hint : ((sign ++ (ds ++ '.' :: fs)).take ((sign ++ ds).length)).filter
      (fun c => !(isSepChar c)) = sign ++ ds := by
    rw [htake]
    apply filter_all_true
    intro c hc
    rcases List.mem_append.mp hc with hx | hx
    · rw [hsignnosep c hx]; rfl
    · rw [digit_not_sep (allDigits_mem hds hx)]; rfl
  have hXeq : sign ++ (ds ++ '.' :: fs) = ((sign ++ ds) ++ ['.']) ++ fs := by
    simp [List.append_assoc]
  have hlen1 : (sign ++ ds).length + 1 = ((sign ++ ds) ++ ['.']).length := by
    simp only [List.length_append, List.length_singleton]
  have hdrop : (sign ++ (ds ++ '.' :: fs)).drop ((sign ++ ds).length + 1) = fs := by
    rw [hXeq, hlen1]
    exact List.drop_left ((sign ++ ds) ++ ['.']) fs
  have hdec : ((sign ++ (ds ++ '.' :: fs)).drop ((sign ++ ds).length + 1)).filter
      Char.isDigit = fs := by
    rw [hdrop]
    exact filter_all_true (fun c hc => allDigits_mem hfd hc)
  have hnot : ¬(fs.length = 3 ∧
      ((sign ++ (ds ++ '.' :: fs)).filter isSepChar).length = 1) :=
    fun hcontra => hf3 hcontra.1
  have hsepne : ¬ (sign ++ (ds ++ '.' :: fs)).filter isSepChar = [] := by
    rw [hsepeq]
    simp
  have hout := normalizeRun_sep_final hsepne hi hint hdec hnot
  have hcp0 : clean_price (sign ++ (ds ++ '.' :: fs)) =
      normalizeRun (sign ++ (ds ++ '.' :: fs)) := by
    unfold clean_price
    rw [hstrip, hrepl, hrange, hext]
  have hfse : fs.isEmpty = false := by
    cases fs with
    | nil => exact absurd rfl hfne
    | cons _ _ => rfl
  by_cases hie : (sign ++ ds).isEmpty = true
  · have hsign0 : sign = [] := by
      rcases hs with rfl | rfl
      · rfl
      · simp at hie
    subst hsign0
    have hds0 : ds = [] := by
      rw [List.nil_append] at hie
      cases ds with
      | nil => rfl
      | cons _ _ => simp at hie
    subst hds0
    have hcanon : isCanonical ('0' :: '.' :: fs) = true := by
      rw [isCanonical, if_neg (by rintro (h | h) <;> exact absurd h (by decide))]
      show canonBody (['0'] ++ '.' :: fs) = true
      exact canonBody_frac (by decide) hfne hfd
    have hcp := hcp0.trans hout
    simp [hfse, hcanon] at hcp
    have hsp1 : pySplit '.' ('0' :: '.' :: fs) = [['0'], fs] := by
      have h9 := @pySplit_append '.' ['0'] fs (by decide)
      rw [@pySplit_single '.' fs (@not_mem_of_digits fs hfd '.' (by decide))] at h9
      exact h9
    have hsp2 : pySplit '.' ('.' :: fs) = [[], fs] := by
      have h9 := @pySplit_append '.' [] fs (by simp)
      rw [@pySplit_single '.' fs (@not_mem_of_digits fs hfd '.' (by decide))] at h9
      exact h9
    have e1 : ratOfCanonical ('0' :: '.' :: fs) = ratBody ('0' :: '.' :: fs) := by
      rw [ratOfCanonical, if_neg (by decide), if_neg (by decide)]
    have e2 : ratOfCanonical ('.' :: fs) = ratBody ('.' :: fs) := by
      rw [ratOfCanonical, if_neg (by decide), if_neg (by decide)]
    have hval : ratOfCanonical ('0' :: '.' :: fs) = ratOfCanonical ('.' :: fs) := by
      rw [e1, e2, ratBody_eval _ _ _ hsp1, ratBody_eval _ _ _ hsp2]
      norm_num [show digitsVal ['0'] = 0 from by decide,
        show digitsVal [] = 0 from rfl]
    simp [parseVal, hcp, hval]
  · have hie2 : (sign ++ ds).isEmpty = false := Bool.eq_false_iff.mpr hie
    have hcanonX : isCanonical (sign ++ (ds ++ '.' :: fs)) = true := by
      apply isCanonical_sign_body hsigns (canonBody_frac hds hfne hfd)
      intro c hc
      cases ds with
      | nil =>
        rw [List.nil_append, List.head?_cons] at hc
        injection hc with hc2
        subst hc2
        exact ⟨by decide, by decide⟩
      | cons d dt =>
        rw [List.cons_append, List.head?_cons] at hc
        injection hc with hc2
        subst hc2
        exact digit_ne_sign (allDigits_mem hds (List.mem_cons_self d dt))
    have hcanonX2 : isCanonical ((sign ++ ds) ++ '.' :: fs) = true := by
      rw [List.append_assoc]
      exact hcanonX
    have hcp := hcp0.trans hout
    simp [hie2, hfse, hcanonX2] at hcp
    rw [if_pos hcanonX] at hcp
    have hXneX : (sign ++ (ds ++ '.' :: fs)).isEmpty = false := by
      rcases hs with rfl | rfl
      · cases ds <;> rfl
      · rfl
    simp [parseVal, hcp, hXneX]

/-- C2 amended: a canonical string with no minus sign whose fractional part
does not have exactly three digits reparses to the value it denotes. -/
theorem canonical_reparse_amended (s : List Char) (hcan : isCanonical s = true)
    (hm : '-' ∉ s) (hf : (fracPart s).length ≠ 3) :
    parseVal s = some (ratOfCanonical s) := by
  cases s with
  | nil => exact absurd hcan (by decide)
  | cons c rest =>
    rw [isCanonical] at hcan
    by_cases hsgn : c = '+' ∨ c = '-'
    · rw [if_pos hsgn] at hcan
      have hcp : c = '+' := by
        rcases hsgn with rfl | rfl
        · rfl
        · exact absurd (List.mem_cons_self _ _) hm
      subst hcp
      rcases canonBody_shape hcan with ⟨hne, hdig⟩ | ⟨ds, fs, hrest, hds, hfne, hfd⟩
      · have h9 := reparse_int (Or.inr rfl) hne hdig
        simpa using h9
      · subst hrest
        have h2 := fracPart_eval (Or.inr rfl) hds hfd
        rw [show fracPart ('+' :: (ds ++ '.' :: fs)) =
          fracPart (['+'] ++ (ds ++ '.' :: fs)) from rfl, h2] at hf
        have h9 := reparse_frac (Or.inr rfl) hds hfne hfd hf
        simpa using h9
    · rw [if_neg hsgn] at hcan
      rcases canonBody_shape hcan with ⟨hne, hdig⟩ | ⟨ds, fs, hrest, hds, hfne, hfd⟩
      · have h9 := reparse_int (Or.inl rfl) hne hdig
        simpa using h9
      · rw [hrest] at hf ⊢
        have h2 := fracPart_eval (Or.inl rfl) hds hfd
        rw [show fracPart (ds ++ '.' :: fs) =
          fracPart ([] ++ (ds ++ '.' :: fs)) from rfl, h2] at hf
        have h9 := reparse_frac (Or.inl rfl) hds hfne hfd hf
        simpa using h9

theorem canonical_reparse_amended_witness :
    isCanonical "12.5".data = true ∧ ('-' ∉ "12.5".data) ∧
      (fracPart "12.5".data).length ≠ 3 ∧
      parseVal "12.5".data = some (ratOfCanonical "12.5".data) :=
  ⟨by decide, by decide, by decide,
    canonical_reparse_amended "12.5".data (by decide) (by decide) (by decide)⟩

/-- C1: the normalize-then-parse pipeline resolves separators as specified
by the locale examples: a lone dot before three digits is a thousands
separator, the rightmost of several separators is the decimal point, a
two-digit fraction keeps its separator as the decimal point, and a bare
fraction gains a leading zero. -/
theorem clean_price_locale_examples :
    parseVal "1.234".data = some 1234 ∧
    parseVal "1,234.56".data = some ((123456 : ℚ) / 100) ∧
    parseVal "1234,56".data = some ((123456 : ℚ) / 100) ∧
    parseVal ".95".data = some ((95 : ℚ) / 100) := by
  refine ⟨by decide, ?_, ?_, ?_⟩
  · rw [parseVal_eval "1,234.56".data "1234.56".data (by decide) (by decide)]
    have hb := ratBody_eval "1234.56".data ['1', '2', '3', '4'] ['5', '6'] (by decide)
    have d1 : digitsVal ['1', '2', '3', '4'] = 1234 := by decide
    have d2 : digitsVal ['5', '6'] = 56 := by decide
    rw [d1, d2] at hb
    simp only [ratOfCanonical, String.data]
    rw [if_neg (by decide), if_neg (by decide)]
    norm_num [hb]
  · rw [parseVal_eval "1234,56".data "1234.56".data (by decide) (by decide)]
    have hb := ratBody_eval "1234.56".data ['1', '2', '3', '4'] ['5', '6'] (by decide)
    have d1 : digitsVal ['1', '2', '3', '4'] = 1234 := by decide
    have d2 : digitsVal ['5', '6'] = 56 := by decide
    rw [d1, d2] at hb
    simp only [ratOfCanonical, String.data]
    rw [if_neg (by decide), if_neg (by decide)]
    norm_num [hb]
  · rw [parseVal_eval ".95".data "0.95".data (by decide) (by decide)]
    have hb := ratBody_eval "0.95".data ['0'] ['9', '5'] (by decide)
    have d1 : digitsVal ['0'] = 0 := by decide
    have d2 : digitsVal ['9', '5'] = 95 := by decide
    rw [d1, d2] at hb
    simp only [ratOfCanonical, String.data]
    rw [if_neg (by decide), if_neg (by decide)]
    norm_num [hb]

/-- C4: with a retry limit of 3 and every attempt failing, the loop
performs exactly three strictly sequential attempts, each failed attempt k
(1-indexed) is followed by a backoff of 2 to the power k time units, and
the backoff delays strictly increase. -/
theorem scrape_price_three_attempts (engine : ℕ → EngineOutcome)
    (shot : ℕ → ScreenshotOutcome) (t : ℕ)
    (h : ∀ k, attemptValue (engine k) = none)
    (hs : ∀ k, shot k ≠ ScreenshotOutcome.dirFailed) :
    scrape_price engine shot t 3 =
      (Except.ok none,
        [Event.attemptStart 1 t, Event.screenshot (savedFlag (shot 0)),
         Event.backoff (2 ^ 1),
         Event.attemptStart 2 t, Event.screenshot (savedFlag (shot 1)),
         Event.backoff (2 ^ 2),
         Event.attemptStart 3 t, Event.screenshot (savedFlag (shot 2)),
         Event.backoff (2 ^ 3)]) ∧
    (scrape_price engine shot t 3).2.countP isAttemptEvent = 3 ∧
    2 ^ 1 < 2 ^ 2 ∧ 2 ^ 2 < 2 ^ 3 := by
  have E : scrape_price engine shot t 3 =
      (Except.ok none,
        [Event.attemptStart 1 t, Event.screenshot (savedFlag (shot 0)),
         Event.backoff (2 ^ 1),
         Event.attemptStart 2 t, Event.screenshot (savedFlag (shot 1)),
         Event.backoff (2 ^ 2),
         Event.attemptStart 3 t, Event.screenshot (savedFlag (shot 2)),
         Event.backoff (2 ^ 3)]) := by
    show scrapeAux engine shot t 0 (3 : ℤ).toNat = _
    have h3 : (3 : ℤ).toNat = 3 := rfl
    rw [h3, scrapeAux_succ_none (h 0) (hs 0), scrapeAux_succ_none (h 1) (hs 1),
      scrapeAux_succ_none (h 2) (hs 2)]
    rfl
  refine ⟨E, ?_, by norm_num, by norm_num⟩
  rw [E]
  rfl

theorem scrape_price_three_attempts_witness :
    scrape_price failEngine constShot 30 3 =
      (Except.ok none,
        [Event.attemptStart 1 30, Event.screenshot false, Event.backoff 2,
         Event.attemptStart 2 30, Event.screenshot false, Event.backoff 4,
         Event.attemptStart 3 30, Event.screenshot false, Event.backoff 8]) := by
  simpa using (scrape_price_three_attempts failEngine constShot 30
    (fun k => rfl) (fun k h => ScreenshotOutcome.noConfusion h)).1

/-- C5 counterexample: scrape_price can raise a fault to its caller.  The
directory creation of _take_screenshot, lines 174-175, runs outside its
try, so when it fails after a failed first attempt the exception leaves
scrape_price from inside its except clause: the concrete run below ends in
a raised fault after one attempt, with no backoff and no further
attempts. -/
theorem scrape_price_screenshot_dir_fault :
    (scrape_price failEngine dirFailShot 30 3).1 =
      Except.error ScreenshotError.directoryFailure ∧
    (scrape_price failEngine dirFailShot 30 3).2 = [Event.attemptStart 1 30] := by
  constructor <;> rfl

/-- C5 amended: every attempt-level failure is absorbed inside the retry
loop and exhaustion of all attempts returns no value rather than raising;
a failure of the screenshot save is swallowed and logged and affects
neither the returned value nor any event besides the screenshot record
itself; but a failure creating the screenshots directory, which runs
outside the try of _take_screenshot, propagates out of scrape_price, and
it is the only fault scrape_price can raise. -/
theorem scrape_price_fault_modes (engine : ℕ → EngineOutcome)
    (shot shot2 : ℕ → ScreenshotOutcome) (t : ℕ) (r : ℤ) :
    ((∀ k, shot k ≠ ScreenshotOutcome.dirFailed) →
      (∀ k, shot2 k ≠ ScreenshotOutcome.dirFailed) →
        (scrape_price engine shot t r).1 = (scrape_price engine shot2 t r).1 ∧
        (scrape_price engine shot t r).2.map maskShot =
          (scrape_price engine shot2 t r).2.map maskShot) ∧
    ((∀ k, attemptValue (engine k) = none) →
      (∀ k, shot k ≠ ScreenshotOutcome.dirFailed) →
        (scrape_price engine shot t r).1 = Except.ok none) ∧
    (∀ e, (scrape_price engine shot t r).1 = Except.error e →
      ∃ k, shot k = ScreenshotOutcome.dirFailed) :=
  ⟨fun h1 h2 => scrapeAux_shot_indep engine shot shot2 t h1 h2 r.toNat 0,
    fun hf hs => scrapeAux_all_fail hf hs r.toNat 0,
    fun e he => scrapeAux_error_origin engine shot t r.toNat 0 e he⟩

theorem scrape_price_fault_modes_witness :
    (scrape_price failEngine constShot 30 3).1 = Except.ok none :=
  (scrape_price_fault_modes failEngine constShot
    (fun _ => ScreenshotOutcome.saved) 30 3).2.1 (fun k => rfl)
    (fun k h => ScreenshotOutcome.noConfusion h)

/-- C6: after whitespace and currency removal, a remaining hyphen makes the
range step split on it and keep the first token holding a digit, so the
range 100-150 resolves to its lower bound 100. -/
theorem range_lower_bound :
    (∀ (s p : List Char), s.contains '-' = true →
        ((pySplit '-' s).map pyStrip).find? (fun q => q.any Char.isDigit) = some p →
        rangeStep s = p) ∧
    clean_price "100-150".data = "100".data ∧
    parseVal "100-150".data = some 100 := by
  refine ⟨?_, by decide, by decide⟩
  intro s p hc hf
  unfold rangeStep
  rw [if_pos hc, hf]

theorem range_lower_bound_witness :
    rangeStep "100-150".data = "100".data :=
  range_lower_bound.1 "100-150".data "100".data (by decide) (by decide)

/-- C7 counterexample: the per-item task of the concurrent batch ignores
the policy entries an item carries.  With an item asking for one attempt
and a timeout of 5, the task still performs three attempts, each with the
default timeout 30, never the timeout 5. -/
theorem scrape_task_ignores_item_policy :
    itemWithPolicy.retriesEntry = some 1 ∧
    itemWithPolicy.timeoutEntry = some 5 ∧
    (scrape_task failEngine constShot itemWithPolicy).2.countP isAttemptEvent = 3 ∧
    Event.attemptStart 1 30 ∈ (scrape_task failEngine constShot itemWithPolicy).2 ∧
    ¬ Event.attemptStart 1 5 ∈ (scrape_task failEngine constShot itemWithPolicy).2 := by
  refine ⟨rfl, rfl, ?_, ?_, ?_⟩ <;> decide

/-- C7 amended: the retry limit defaults to 3 and the per-attempt timeout
to 30, and both take effect when a caller passes them to scrape_price
directly; but the concurrent batch task always invokes scrape_price with
the defaults, so they are not configurable per batch request. -/
theorem retry_policy_defaults :
    default_retries = 3 ∧ default_timeout = 30 ∧
    (∀ (engine : ℕ → EngineOutcome) (shot : ℕ → ScreenshotOutcome)
        (t : ℕ) (r : ℤ),
      (∀ k, attemptValue (engine k) = none) →
      (∀ k, shot k ≠ ScreenshotOutcome.dirFailed) →
        (scrape_price engine shot t r).2.countP isAttemptEvent = r.toNat ∧
        ∀ k t0, Event.attemptStart k t0 ∈ (scrape_price engine shot t r).2 →
          t0 = t) ∧
    (∀ (engine : ℕ → EngineOutcome) (shot : ℕ → ScreenshotOutcome)
        (item : SiteItem),
      scrape_task engine shot item =
        scrape_price engine shot default_timeout default_retries) := by
  refine ⟨rfl, rfl, ?_, fun engine shot item => rfl⟩
  intro engine shot t r h hs
  exact ⟨scrapeAux_all_fail_count h hs r.toNat 0,
    fun k t0 hm => scrapeAux_timeout_used engine shot t r.toNat 0 k t0 hm⟩

theorem retry_policy_defaults_witness :
    (scrape_price failEngine constShot 7 2).2.countP isAttemptEvent = 2 :=
  (retry_policy_defaults.2.2.1 failEngine constShot 7 2 (fun k => rfl)
    (fun k h => ScreenshotOutcome.noConfusion h)).1

/-- C10: with a retry limit at or below zero the while condition fails at
once: no attempt, screenshot or backoff happens and the result is no
value. -/
theorem scrape_price_nonpositive_retries (engine : ℕ → EngineOutcome)
    (shot : ℕ → ScreenshotOutcome) (t : ℕ) (r : ℤ) (hr : r ≤ 0) :
    scrape_price engine shot t r = (Except.ok none, []) := by
  unfold scrape_price
  rw [Int.toNat_of_nonpos hr]
  rfl

theorem scrape_price_nonpositive_retries_witness :
    scrape_price failEngine constShot 30 (-2) = (Except.ok none, []) :=
  scrape_price_nonpositive_retries failEngine constShot 30 (-2) (by norm_num)

end CrawlerBot
